import Mathlib

set_option maxHeartbeats 1000000

/-!
Shallow embedding of `scripts/parse_divan.py`.

Strings are modelled as `List Char`.  The only effectful primitives of the
script — the HTTP fetch (`requests.get` inside `fetch_page`), the sleep
(`time.sleep`), the directory creation and the file write — are modelled
explicitly: the fetch becomes a parameter `fetcher : List Char → Option (List Char)`
(URL to optional body, exactly the contract of `fetch_page`), and the
observable effects of a collection run are recorded in an event trace.
-/

/-- Model of the regex class `\s` used in `PRICE_PATTERN` (space-like
characters; Python matches ASCII whitespace plus Unicode spaces, the inputs
relevant here only use ASCII whitespace). -/
def isSpaceChar (c : Char) : Bool := c.isWhitespace

/-- Model of the regex class `[\d\s]` of `PRICE_PATTERN`. -/
def isDigitSpace (c : Char) : Bool := c.isDigit || isSpaceChar c

/-- The literal currency suffix `руб.` of `PRICE_PATTERN = re.compile(r"\d[\d\s]+руб\.")`. -/
def rubList : List Char := "руб.".toList

/-- Modelled from the library call `BeautifulSoup(html, "html.parser")` /
`soup.get_text(" ", strip=True)` used by `extract_prices_from_html`
(lines 83–86): markup between `<` and `>` is discarded, the text segments
between tags are collected (helper; `inTag` says whether the scanner is
currently inside a tag). -/
def textSegmentsGo (inTag : Bool) : List Char → List (List Char)
  | [] => [[]]
  | c :: r =>
    if inTag then textSegmentsGo (c != '>') r
    else if c = '<' then [] :: textSegmentsGo true r
    else
      match textSegmentsGo false r with
      | [] => [[c]]
      | s :: ss => (c :: s) :: ss

/-- Strip of space-like characters at both ends of a segment (model of
Python `str.strip()` as applied by `get_text(" ", strip=True)`). -/
def stripChars (l : List Char) : List Char :=
  ((l.dropWhile isSpaceChar).reverse.dropWhile isSpaceChar).reverse

/-- Modelled from the spec and the library semantics of
`soup.get_text(" ", strip=True)` (line 86): each text segment between tags is
stripped, empty segments are dropped, and the remaining segments are joined
with a single space. -/
def soupGetText (html : List Char) : List Char :=
  List.intercalate [' ']
    (((textSegmentsGo false html).map stripChars).filter (fun s => s != []))

/-- One attempted match of `PRICE_PATTERN` at the head of the text.
`\d[\d\s]+руб\.` matches here iff the head is a digit, it is followed by a
nonempty run of digit/space characters, and immediately after the maximal
such run stands the literal `руб.` (the greedy `[\d\s]+` can only hand back
characters that are digits or spaces, none of which can start `руб.`, so
only the maximal run can succeed).  Returns the matched substring and the
remaining text after the match. -/
def matchPriceAt : List Char → Option (List Char × List Char)
  | [] => none
  | c :: rest =>
    if c.isDigit then
      let run := rest.takeWhile isDigitSpace
      let after := rest.dropWhile isDigitSpace
      if !run.isEmpty && rubList.isPrefixOf after then
        some (c :: (run ++ rubList), after.drop rubList.length)
      else none
    else none

/-- Fuel-indexed scanner behind `findallPrices`: try a match at every
position left to right, non-overlapping, exactly the semantics of
`PRICE_PATTERN.findall(page_text)` (line 89).  The fuel only serves
structural termination; `findallPrices` instantiates it with the text
length, which always suffices. -/
def findallGo : Nat → List Char → List (List Char)
  | _, [] => []
  | 0, _ :: _ => []
  | fuel + 1, c :: rest =>
    match matchPriceAt (c :: rest) with
    | some (m, r) => m :: findallGo fuel r
    | none => findallGo fuel rest

/-- Model of `PRICE_PATTERN.findall(page_text)`: all non-overlapping matches
of `\d[\d\s]+руб\.` in left-to-right order. -/
def findallPrices (text : List Char) : List (List Char) :=
  findallGo text.length text

/-- The dedup loop of `extract_prices_from_html` (lines 92–97): walk the
matches, keep a `seen` set, append a match only the first time it is seen. -/
def dedupeLoop (seen : List (List Char)) : List (List Char) → List (List Char)
  | [] => []
  | price :: rest =>
    if price ∈ seen then dedupeLoop seen rest
    else price :: dedupeLoop (price :: seen) rest

/-- Model of `extract_prices_from_html` (lines 74–99): flatten the page to
text, find all `PRICE_PATTERN` matches, and deduplicate preserving order. -/
def extract_prices_from_html (html : List Char) : List (List Char) :=
  dedupeLoop [] (findallPrices (soupGetText html))

/-- Decides whether a string matches `PRICE_PATTERN` exactly (Python
`re.fullmatch(r"\d[\d\s]+руб\.", s)`): a digit, then a nonempty run of
digit/space characters, then the literal `руб.` and nothing else. -/
def matchesPricePattern (s : List Char) : Bool :=
  match s with
  | [] => false
  | c :: rest =>
    c.isDigit && !(rest.takeWhile isDigitSpace).isEmpty &&
      decide (rest.dropWhile isDigitSpace = rubList)

example : soupGetText "<p>10 000 руб.</p>".toList = "10 000 руб.".toList := by decide

example : extract_prices_from_html "<p>Цена 68 990 руб. Цена 68 990 руб. скидка</p>".toList
    = ["68 990 руб.".toList] := by decide

example : matchesPricePattern "68 990 руб.".toList = true := by decide

/-- Model of `build_page_url` (lines 102–106): page 1 is the bare base URL,
page `k ≠ 1` appends `?page=` and the decimal rendering of `k` (the
f-string `f"\x7bbase_url\x7d?page=\x7bpage\x7d"`). -/
def build_page_url (base_url : List Char) (page : Int) : List Char :=
  if page = 1 then base_url
  else base_url ++ ("?page=".toList ++ (toString page).toList)

/-- Observable effects of one run of `collect_prices`: the HTTP GET issued by
`fetch_page(url)` (line 132), the extraction performed on a fetched body
(line 137), and the `time.sleep(delay)` pause (line 145), tagged with the
page it follows and the configured delay. -/
inductive Event where
  | fetchEv (url : List Char)
  | extractEv (page : Int)
  | sleepEv (delay : ℚ) (page : Int)
deriving DecidableEq

/-- State threaded through the loop of `collect_prices`: the `all_prices`
accumulator (line 121) plus the trace of effects performed so far. -/
structure CollectState where
  all_prices : List (List Char)
  events : List Event
deriving DecidableEq

/-- Model of Python `range(1, pages + 1)` (line 128) over an `int` page
count: the pages `1, 2, …, pages`, empty when `pages ≤ 0`. -/
def pageRange (pages : Int) : List Int :=
  (List.range pages.toNat).map (fun (i : Nat) => (i : Int) + 1)

/-- Loop body of `collect_prices` (lines 128–145) for one `page_num`:
build the URL, fetch it (`fetcher` is the model of `fetch_page`, URL to
optional body); on `None` skip the page (`continue`); otherwise extract,
extend `all_prices`, and sleep iff this is not the last page. -/
def processPage (fetcher : List Char → Option (List Char)) (base_url : List Char)
    (pages : Int) (delay : ℚ) (st : CollectState) (page_num : Int) : CollectState :=
  let url := build_page_url base_url page_num
  let st1 : CollectState := { st with events := st.events ++ [Event.fetchEv url] }
  match fetcher url with
  | none => st1
  | some html =>
    let page_prices := extract_prices_from_html html
    let st2 : CollectState :=
      { all_prices := st1.all_prices ++ page_prices,
        events := st1.events ++ [Event.extractEv page_num] }
    if page_num < pages then
      { st2 with events := st2.events ++ [Event.sleepEv delay page_num] }
    else st2

/-- Model of `collect_prices` (lines 109–151) with its effect trace: fold the
loop body over the pages `1..pages`. -/
def collectRun (fetcher : List Char → Option (List Char)) (base_url : List Char)
    (pages : Int) (delay : ℚ) : CollectState :=
  (pageRange pages).foldl (processPage fetcher base_url pages delay)
    { all_prices := [], events := [] }

/-- The return value of `collect_prices`: the aggregated price list. -/
def collect_prices (fetcher : List Char → Option (List Char)) (base_url : List Char)
    (pages : Int) (delay : ℚ) : List (List Char) :=
  (collectRun fetcher base_url pages delay).all_prices

/-- Contribution of a single page to the aggregate: nothing when the fetch
fails, the page's extraction result otherwise (specification of the loop
body's effect on `all_prices`). -/
def pagePrices (fetcher : List Char → Option (List Char)) (base_url : List Char)
    (page_num : Int) : List (List Char) :=
  match fetcher (build_page_url base_url page_num) with
  | none => []
  | some html => extract_prices_from_html html

/-- Events emitted while processing a single page: always the fetch; on a
fetched body also the extraction, and the sleep exactly when the page is not
the last one. -/
def pageEvents (fetcher : List Char → Option (List Char)) (base_url : List Char)
    (pages : Int) (delay : ℚ) (page_num : Int) : List Event :=
  Event.fetchEv (build_page_url base_url page_num) ::
    match fetcher (build_page_url base_url page_num) with
    | none => []
    | some _ =>
      Event.extractEv page_num ::
        (if page_num < pages then [Event.sleepEv delay page_num] else [])

/-- Escape of one value for the CSV row: `price.replace('"', '""')`
(line 168). -/
def csvEscape : List Char → List Char
  | [] => []
  | c :: r => if c = '"' then '"' :: '"' :: csvEscape r else c :: csvEscape r

/-- One data row as written by line 169: `f'"\x7bescaped\x7d"\n'`. -/
def csvRow (price : List Char) : List Char :=
  '"' :: (csvEscape price ++ ['"', '\n'])

/-- All data rows, in order. -/
def csvRows : List (List Char) → List Char
  | [] => []
  | p :: ps => csvRow p ++ csvRows ps

/-- The fixed header line `"price_raw\n"` written at line 165. -/
def headerLine : List Char := "price_raw\n".toList

/-- Result of `save_to_csv` (lines 154–171): `mkdirParents` records that
`output_path.parent.mkdir(parents=True, exist_ok=True)` (line 161) is
executed unconditionally, and `content` is the full text written to the
output file. -/
structure SaveResult where
  mkdirParents : Bool
  content : List Char
deriving DecidableEq

/-- Model of `save_to_csv`: create the directory, then write the header line
followed by one quoted row per price. -/
def save_to_csv (prices : List (List Char)) : SaveResult :=
  { mkdirParents := true, content := headerLine ++ csvRows prices }

/-- Configuration constant `BASE_URL` (line 27). -/
def BASE_URL : List Char := "https://www.divan.ru/category/divany".toList

/-- Configuration constant `PAGES_TO_FETCH` (line 28). -/
def PAGES_TO_FETCH : Int := 2

/-- Configuration constant `REQUEST_DELAY` (line 29); the float `1.5`
modelled exactly as a rational. -/
def REQUEST_DELAY : ℚ := 3 / 2

/-- Observable result of `main` (lines 178–201): the process exit status and
the file write, `none` when `save_to_csv` was not invoked. -/
structure MainResult where
  exitCode : Int
  written : Option SaveResult
deriving DecidableEq

/-- Model of `main`: collect, and either fail with status 1 writing nothing
(empty collection) or write the CSV and return 0.  (Named `mainEntry`
because Lean reserves `main` for executable entry points.) -/
def mainEntry (fetcher : List Char → Option (List Char)) : MainResult :=
  if collect_prices fetcher BASE_URL PAGES_TO_FETCH REQUEST_DELAY = [] then
    { exitCode := 1, written := none }
  else
    { exitCode := 0,
      written := some (save_to_csv
        (collect_prices fetcher BASE_URL PAGES_TO_FETCH REQUEST_DELAY)) }

/-- Reader for one double-quoted CSV field, stated from the spec's words
"undoing the quoting": the input starts right after the opening quote; a
doubled quote stands for a literal quote, a single quote closes the field.
Returns the field and the remaining input. -/
def readQuoted : List Char → Option (List Char × List Char)
  | [] => none
  | c :: r =>
    if c = '"' then
      match r with
      | [] => some ([], [])
      | c2 :: r2 =>
        if c2 = '"' then (readQuoted r2).map (fun fr => ('"' :: fr.1, fr.2))
        else some ([], c2 :: r2)
    else (readQuoted r).map (fun fr => (c :: fr.1, fr.2))

/-- Reader for the data rows: each row is a double-quoted field followed by a
newline.  Fuel-indexed for structural termination; one unit of fuel per row
suffices. -/
def readRowsFuel : Nat → List Char → Option (List (List Char))
  | _, [] => some []
  | 0, _ :: _ => none
  | fuel + 1, c :: rest =>
    if c = '"' then
      match readQuoted rest with
      | some (f, r0 :: r1) =>
        if r0 = '\n' then (readRowsFuel fuel r1).map (fun fs => f :: fs) else none
      | _ => none
    else none

/-- Reader for the whole file content, stated from the spec's words
"ignoring the header and undoing the quoting": require the header line,
then read the quoted rows. -/
def read_csv_content (content : List Char) : Option (List (List Char)) :=
  if headerLine.isPrefixOf content then
    readRowsFuel content.length (content.drop headerLine.length)
  else none

/-- Specification-side description of first-occurrence deduplication, stated
from the spec's words: keep the first occurrence of each distinct value, in
its original relative order, and omit later repeats. -/
def firstOccurrences : List (List Char) → List (List Char)
  | [] => []
  | x :: l => x :: firstOccurrences (l.filter (fun y => y != x))
termination_by l => l.length
decreasing_by
  simp only [List.length_cons]
  exact Nat.lt_succ_of_le (List.length_filter_le _ _)

example :
    read_csv_content (save_to_csv ["68 990 руб.".toList, "45 990 руб.".toList]).content
      = some ["68 990 руб.".toList, "45 990 руб.".toList] := by decide

example :
    read_csv_content (save_to_csv [['a', '"', 'b']]).content = some [['a', '"', 'b']] := by
  decide

example :
    collect_prices (fun _ => some "<p>10 руб.</p>".toList) BASE_URL 2 1
      = ["10 руб.".toList, "10 руб.".toList] := by decide

example :
    mainEntry (fun _ => none) = { exitCode := 1, written := none } := by decide

/-! Helper lemmas about the collector loop. -/

lemma processPage_eq (f : List Char → Option (List Char)) (b : List Char)
    (pgs : Int) (d : ℚ) (st : CollectState) (p : Int) :
    processPage f b pgs d st p =
      { all_prices := st.all_prices ++ pagePrices f b p,
        events := st.events ++ pageEvents f b pgs d p } := by
  unfold processPage pagePrices pageEvents
  cases h : f (build_page_url b p) with
  | none => simp [h]
  | some html =>
    by_cases hp : p < pgs <;> simp [h, hp]

lemma foldl_processPage (f : List Char → Option (List Char)) (b : List Char)
    (pgs : Int) (d : ℚ) :
    ∀ (ps : List Int) (st : CollectState),
      ps.foldl (processPage f b pgs d) st =
        { all_prices := st.all_prices ++ (ps.map (pagePrices f b)).flatten,
          events := st.events ++ (ps.map (pageEvents f b pgs d)).flatten } := by
  intro ps
  induction ps with
  | nil => intro st; simp
  | cons p ps ih =>
    intro st
    simp [List.foldl_cons, processPage_eq, ih, List.append_assoc]

lemma collectRun_eq (f : List Char → Option (List Char)) (b : List Char)
    (pgs : Int) (d : ℚ) :
    collectRun f b pgs d =
      { all_prices := ((pageRange pgs).map (pagePrices f b)).flatten,
        events := ((pageRange pgs).map (pageEvents f b pgs d)).flatten } := by
  simp [collectRun, foldl_processPage]

lemma collect_prices_eq (f : List Char → Option (List Char)) (b : List Char)
    (pgs : Int) (d : ℚ) :
    collect_prices f b pgs d = ((pageRange pgs).map (pagePrices f b)).flatten := by
  simp [collect_prices, collectRun_eq]

lemma mem_pageRange (pgs p : Int) : p ∈ pageRange pgs ↔ 1 ≤ p ∧ p ≤ pgs := by
  unfold pageRange
  rw [List.mem_map]
  constructor
  · rintro ⟨i, hi, rfl⟩
    rw [List.mem_range] at hi
    omega
  · rintro ⟨h1, h2⟩
    refine ⟨(p - 1).toNat, ?_, ?_⟩
    · rw [List.mem_range]
      omega
    · omega

lemma mem_dedupeLoop (x : List Char) :
    ∀ (l seen : List (List Char)), x ∈ dedupeLoop seen l ↔ x ∈ l ∧ x ∉ seen := by
  intro l
  induction l with
  | nil => intro seen; simp [dedupeLoop]
  | cons p rest ih =>
    intro seen
    by_cases hp : p ∈ seen
    · simp only [dedupeLoop, if_pos hp, ih, List.mem_cons]
      constructor
      · rintro ⟨hx, hs⟩
        exact ⟨Or.inr hx, hs⟩
      · rintro ⟨hx | hx, hs⟩
        · exact absurd (hx ▸ hp) hs
        · exact ⟨hx, hs⟩
    · simp only [dedupeLoop, if_neg hp, List.mem_cons, ih]
      constructor
      · rintro (rfl | ⟨hx, hs⟩)
        · exact ⟨Or.inl rfl, hp⟩
        · simp only [List.mem_cons, not_or] at hs
          exact ⟨Or.inr hx, hs.2⟩
      · rintro ⟨rfl | hx, hs⟩
        · exact Or.inl rfl
        · by_cases hxp : x = p
          · exact Or.inl hxp
          · exact Or.inr ⟨hx, by simp [List.mem_cons, hxp, hs]⟩

lemma nodup_dedupeLoop :
    ∀ (l seen : List (List Char)), (dedupeLoop seen l).Nodup := by
  intro l
  induction l with
  | nil => intro seen; simp [dedupeLoop]
  | cons p rest ih =>
    intro seen
    by_cases hp : p ∈ seen
    · simpa only [dedupeLoop, if_pos hp] using ih seen
    · simp only [dedupeLoop, if_neg hp, List.nodup_cons]
      refine ⟨fun h => ?_, ih (p :: seen)⟩
      exact ((mem_dedupeLoop p rest (p :: seen)).mp h).2 (List.mem_cons_self p seen)

lemma takeWhile_append_of_all {p : Char → Bool} :
    ∀ (t u : List Char), (∀ x ∈ t, p x = true) →
      (t ++ u).takeWhile p = t ++ u.takeWhile p := by
  intro t
  induction t with
  | nil => intro u _; simp
  | cons a t ih =>
    intro u h
    have ha : p a = true := h a (List.mem_cons_self a t)
    simp [List.takeWhile_cons, ha, ih u (fun x hx => h x (List.mem_cons_of_mem a hx))]

lemma dropWhile_append_of_all {p : Char → Bool} :
    ∀ (t u : List Char), (∀ x ∈ t, p x = true) →
      (t ++ u).dropWhile p = u.dropWhile p := by
  intro t
  induction t with
  | nil => intro u _; simp
  | cons a t ih =>
    intro u h
    have ha : p a = true := h a (List.mem_cons_self a t)
    simp [List.dropWhile_cons, ha, ih u (fun x hx => h x (List.mem_cons_of_mem a hx))]

lemma matchPriceAt_pattern {l m r : List Char} (h : matchPriceAt l = some (m, r)) :
    matchesPricePattern m = true := by
  cases l with
  | nil => simp [matchPriceAt] at h
  | cons c rest =>
    simp only [matchPriceAt] at h
    by_cases hc : c.isDigit = true
    · rw [if_pos hc] at h
      by_cases hg : (!(rest.takeWhile isDigitSpace).isEmpty &&
          rubList.isPrefixOf (rest.dropWhile isDigitSpace)) = true
      · rw [if_pos hg] at h
        simp only [Option.some.injEq, Prod.mk.injEq] at h
        obtain ⟨hm, _⟩ := h
        subst hm
        have hall : ∀ x ∈ rest.takeWhile isDigitSpace, isDigitSpace x = true :=
          fun x hx => List.mem_takeWhile_imp hx
        have hne : (rest.takeWhile isDigitSpace).isEmpty = false := by
          rcases Bool.and_eq_true_iff.mp hg with ⟨h1, _⟩
          simpa using h1
        simp only [matchesPricePattern]
        rw [takeWhile_append_of_all _ _ hall, dropWhile_append_of_all _ _ hall]
        rw [show rubList.takeWhile isDigitSpace = [] from by decide]
        rw [show rubList.dropWhile isDigitSpace = rubList from by decide]
        simp [hc, hne]
      · rw [if_neg hg] at h
        exact Option.noConfusion h
    · rw [if_neg hc] at h
      exact Option.noConfusion h

lemma findallGo_pattern :
    ∀ (fuel : Nat) (text m : List Char),
      m ∈ findallGo fuel text → matchesPricePattern m = true := by
  intro fuel
  induction fuel with
  | zero =>
    intro text m hm
    cases text <;> simp [findallGo] at hm
  | succ fuel ih =>
    intro text m hm
    cases text with
    | nil => simp [findallGo] at hm
    | cons c rest =>
      simp only [findallGo] at hm
      cases hmt : matchPriceAt (c :: rest) with
      | none =>
        rw [hmt] at hm
        exact ih rest m hm
      | some pr =>
        obtain ⟨m0, r⟩ := pr
        rw [hmt] at hm
        rcases List.mem_cons.mp hm with rfl | hm'
        · exact matchPriceAt_pattern hmt
        · exact ih r m hm'

lemma dedupeLoop_eq_firstOccurrences :
    ∀ (l seen : List (List Char)),
      dedupeLoop seen l = firstOccurrences (l.filter (fun y => decide (y ∉ seen))) := by
  intro l
  induction l with
  | nil => intro seen; simp [dedupeLoop, firstOccurrences]
  | cons p rest ih =>
    intro seen
    by_cases hp : p ∈ seen
    · rw [show dedupeLoop seen (p :: rest) = dedupeLoop seen rest from by
        simp [dedupeLoop, hp]]
      rw [ih seen]
      congr 1
      simp [List.filter_cons, hp]
    · rw [show dedupeLoop seen (p :: rest) = p :: dedupeLoop (p :: seen) rest from by
        simp [dedupeLoop, hp]]
      rw [ih (p :: seen)]
      rw [show (p :: rest).filter (fun y => decide (y ∉ seen))
            = p :: rest.filter (fun y => decide (y ∉ seen)) from by
          simp [List.filter_cons, hp]]
      rw [firstOccurrences]
      congr 1
      rw [List.filter_filter]
      congr 1
      refine List.filter_congr ?_
      intro y _
      by_cases h1 : y = p <;> by_cases h2 : y ∈ seen <;>
        simp [h1, h2, List.mem_cons, bne]

lemma filter_not_mem_nil (l : List (List Char)) :
    l.filter (fun y => decide (y ∉ ([] : List (List Char)))) = l := by
  induction l with
  | nil => rfl
  | cons a l ih => simp [List.filter_cons, ih]

lemma readQuoted_cons_ne (c : Char) (r : List Char) (hc : ¬c = '"') :
    readQuoted (c :: r) = (readQuoted r).map (fun fr => (c :: fr.1, fr.2)) := by
  cases r with
  | nil => rw [readQuoted.eq_2, if_neg hc]
  | cons c2 r2 => rw [readQuoted.eq_3, if_neg hc]

lemma readQuoted_escape :
    ∀ (p rest : List Char),
      readQuoted (csvEscape p ++ ('"' :: '\n' :: rest)) = some (p, '\n' :: rest) := by
  intro p
  induction p with
  | nil => intro rest; rfl
  | cons c p ih =>
    intro rest
    by_cases hc : c = '"'
    · subst hc
      simp only [csvEscape, if_pos trivial, List.cons_append]
      rw [readQuoted.eq_3]
      simp [ih]
    · simp only [csvEscape, if_neg hc, List.cons_append]
      rw [readQuoted_cons_ne c _ hc]
      simp [ih]

lemma csvRows_length_ge : ∀ prices : List (List Char), prices.length ≤ (csvRows prices).length := by
  intro prices
  induction prices with
  | nil => simp [csvRows]
  | cons p ps ih =>
    simp only [csvRows, csvRow, List.length_cons, List.length_append]
    omega

lemma readRowsFuel_csvRows :
    ∀ (prices : List (List Char)) (fuel : Nat), prices.length ≤ fuel →
      readRowsFuel fuel (csvRows prices) = some prices := by
  intro prices
  induction prices with
  | nil =>
    intro fuel _
    cases fuel <;> rfl
  | cons p ps ih =>
    intro fuel hf
    cases fuel with
    | zero => simp at hf
    | succ fuel =>
      have hps : ps.length ≤ fuel := by
        simp only [List.length_cons] at hf
        omega
      rw [show csvRows (p :: ps) = '"' :: (csvEscape p ++ ('"' :: '\n' :: csvRows ps)) from by
        simp [csvRows, csvRow]]
      simp [readRowsFuel, readQuoted_escape, ih fuel hps]

lemma isPrefixOf_append_left (l r : List Char) : l.isPrefixOf (l ++ r) = true := by
  induction l with
  | nil => simp [List.isPrefixOf]
  | cons c l ih => simp [List.isPrefixOf, ih]

lemma sleep_mem_pageEvents (f : List Char → Option (List Char)) (b : List Char)
    (pgs : Int) (d : ℚ) (p k : Int) :
    Event.sleepEv d k ∈ pageEvents f b pgs d p ↔
      p = k ∧ p < pgs ∧ (f (build_page_url b p)).isSome = true := by
  unfold pageEvents
  cases h : f (build_page_url b p) with
  | none => simp
  | some html =>
    by_cases hp : p < pgs <;> simp [hp, eq_comm]

/-- A fetcher that returns the same fixed page body for every URL (used to
exhibit cross-page duplication). -/
def fetcherConstPage : List Char → Option (List Char) :=
  fun _ => some "<p>10 руб.</p>".toList

/-- A fetcher that succeeds only on the bare base URL, so page 2 of a run
fails (used for the failed-page scenario). -/
def fetcherPage1Only : List Char → Option (List Char) :=
  fun url => if url = BASE_URL then some "<p>10 000 руб.</p>".toList else none

/-- C1 counterexample: with two pages whose bodies both contain the price
`10 руб.`, the aggregate produced by `collect_prices` contains that string
twice, so deduplication does not hold across the whole run's collection. -/
theorem collect_prices_crossPageDup_cex :
    ¬(collect_prices fetcherConstPage BASE_URL 2 1).Nodup := by
  decide

/-- C1 (amended): deduplication by exact string equality holds within each
page's extraction (every per-page contribution is duplicate-free, insertion
order preserved), and the run's aggregate is the concatenation of these
per-page deduplicated lists in page order; duplicates across distinct pages
are not removed. -/
theorem collect_prices_pagewise_dedup (fetcher : List Char → Option (List Char))
    (base_url : List Char) (pages : Int) (delay : ℚ) :
    collect_prices fetcher base_url pages delay
      = ((pageRange pages).map (pagePrices fetcher base_url)).flatten ∧
    ∀ p : Int, (pagePrices fetcher base_url p).Nodup := by
  refine ⟨collect_prices_eq _ _ _ _, ?_⟩
  intro p
  unfold pagePrices
  cases fetcher (build_page_url base_url p) with
  | none => simp
  | some html => exact nodup_dedupeLoop _ _

/-- C2: `main` returns exit status 1 and writes no file when the aggregated
collected list is empty, and otherwise invokes the CSV writer on the
collected list and returns exit status 0. -/
theorem main_exit_status (fetcher : List Char → Option (List Char)) :
    (collect_prices fetcher BASE_URL PAGES_TO_FETCH REQUEST_DELAY = [] →
      mainEntry fetcher = { exitCode := 1, written := none }) ∧
    (collect_prices fetcher BASE_URL PAGES_TO_FETCH REQUEST_DELAY ≠ [] →
      mainEntry fetcher
        = { exitCode := 0,
            written := some (save_to_csv
              (collect_prices fetcher BASE_URL PAGES_TO_FETCH REQUEST_DELAY)) }) := by
  constructor
  · intro h
    simp [mainEntry, h]
  · intro h
    simp [mainEntry, h]

/-- C2 witness: both branches at concrete fetchers. -/
theorem main_exit_status_witness :
    mainEntry (fun _ => none) = { exitCode := 1, written := none } ∧
    mainEntry fetcherConstPage
      = { exitCode := 0,
          written := some (save_to_csv
            (collect_prices fetcherConstPage BASE_URL PAGES_TO_FETCH REQUEST_DELAY)) } :=
  ⟨(main_exit_status (fun _ => none)).1 (by decide),
   (main_exit_status fetcherConstPage).2 (by decide)⟩

/-- C3: for every HTML input, the extraction result has no duplicate
elements and every returned element matches the price regular expression
`\d[\d\s]+руб\.` exactly. -/
theorem extract_prices_nodup_pattern (html : List Char) :
    (extract_prices_from_html html).Nodup ∧
    (extract_prices_from_html html).all matchesPricePattern = true := by
  constructor
  · exact nodup_dedupeLoop _ _
  · rw [List.all_eq_true]
    intro m hm
    have hmem := (mem_dedupeLoop m _ _).mp hm
    exact findallGo_pattern _ _ m hmem.1

/-- C4: for every input, the extraction output is exactly the
first-occurrence filter of the pattern matches found in the rendered text,
in their left-to-right order with later repeats omitted; in particular the
duplicated-price example yields a single entry. -/
theorem extract_prices_first_occurrence_order :
    (∀ html : List Char,
        extract_prices_from_html html
          = firstOccurrences (findallPrices (soupGetText html))) ∧
    extract_prices_from_html "<p>Цена 68 990 руб. Цена 68 990 руб. скидка</p>".toList
      = ["68 990 руб.".toList] := by
  constructor
  · intro html
    unfold extract_prices_from_html
    rw [dedupeLoop_eq_firstOccurrences, filter_not_mem_nil]
  · decide

/-- C5: the aggregate is the in-page-order concatenation of the per-page
extraction results, and a page whose fetch yields no body contributes zero
price strings (the run continues with the other pages). -/
theorem collect_prices_skips_failed_pages (fetcher : List Char → Option (List Char))
    (base_url : List Char) (pages : Int) (delay : ℚ) :
    collect_prices fetcher base_url pages delay
      = ((pageRange pages).map (pagePrices fetcher base_url)).flatten ∧
    ∀ p : Int, fetcher (build_page_url base_url p) = none →
      pagePrices fetcher base_url p = [] := by
  refine ⟨collect_prices_eq _ _ _ _, ?_⟩
  intro p hp
  unfold pagePrices
  rw [hp]

/-- C5 witness: the two-page scenario where page 1 yields `10 000 руб.` and
page 2's fetch fails; page 2 contributes nothing and the aggregate is
exactly the one price from page 1. -/
theorem collect_prices_skips_failed_pages_witness :
    pagePrices fetcherPage1Only BASE_URL 2 = [] ∧
    collect_prices fetcherPage1Only BASE_URL 2 1 = ["10 000 руб.".toList] :=
  ⟨(collect_prices_skips_failed_pages fetcherPage1Only BASE_URL 2 1).2 2 (by decide),
   by decide⟩

/-- C6: page 1 maps to the bare base URL and any page `k > 1` maps to the
base URL followed by `?page=` and the decimal representation of `k`. -/
theorem build_page_url_spec (base_url : List Char) (k : Int) (hk : 1 < k) :
    build_page_url base_url 1 = base_url ∧
    build_page_url base_url k = base_url ++ ("?page=".toList ++ (toString k).toList) := by
  constructor
  · simp [build_page_url]
  · unfold build_page_url
    rw [if_neg (by omega)]

/-- C6 witness: the configured base URL at pages 1 and 2, with the page-2
URL evaluated to its literal string. -/
theorem build_page_url_spec_witness :
    build_page_url BASE_URL 1 = BASE_URL ∧
    build_page_url BASE_URL 2 = "https://www.divan.ru/category/divany?page=2".toList := by
  have h := build_page_url_spec BASE_URL 2 (by decide)
  exact ⟨h.1, h.2.trans (by decide)⟩

/-- C7: writing any list of price strings with `save_to_csv` (header line,
then each value double-quoted with embedded quotes doubled) and re-reading
the content, ignoring the header and undoing the quoting, recovers exactly
the original ordered list. -/
theorem save_to_csv_roundTrip (prices : List (List Char)) :
    read_csv_content (save_to_csv prices).content = some prices := by
  unfold read_csv_content save_to_csv
  simp only
  rw [if_pos (isPrefixOf_append_left _ _)]
  rw [List.drop_left]
  refine readRowsFuel_csvRows prices _ ?_
  have h := csvRows_length_ge prices
  simp only [List.length_append]
  omega

/-- C8: during a run over pages `1..N`, the inter-request sleep of the
configured delay occurs after processing page `k` exactly when `k < N` and
page `k`'s fetch returned a body; in particular it never occurs after the
final page. -/
theorem collect_prices_sleep_iff (fetcher : List Char → Option (List Char))
    (base_url : List Char) (pages : Int) (delay : ℚ) (k : Int) :
    Event.sleepEv delay k ∈ (collectRun fetcher base_url pages delay).events ↔
      1 ≤ k ∧ k < pages ∧ (fetcher (build_page_url base_url k)).isSome = true := by
  rw [collectRun_eq]
  simp only [List.mem_flatten, List.mem_map]
  constructor
  · rintro ⟨evs, ⟨p, hp, rfl⟩, hmem⟩
    obtain ⟨rfl, h2, h3⟩ := (sleep_mem_pageEvents _ _ _ _ _ _).mp hmem
    exact ⟨((mem_pageRange pages p).mp hp).1, h2, h3⟩
  · rintro ⟨h1, h2, h3⟩
    refine ⟨pageEvents fetcher base_url pages delay k, ⟨k, ?_, rfl⟩, ?_⟩
    · exact (mem_pageRange pages k).mpr ⟨h1, by omega⟩
    · exact (sleep_mem_pageEvents _ _ _ _ _ _).mpr ⟨rfl, h2, h3⟩

/-- C8 witness: in a two-page run with delay 1 whose fetches succeed, a sleep
occurs after page 1. -/
theorem collect_prices_sleep_iff_witness :
    Event.sleepEv 1 1 ∈ (collectRun fetcherConstPage BASE_URL 2 1).events :=
  (collect_prices_sleep_iff fetcherConstPage BASE_URL 2 1 1).mpr
    ⟨by decide, by decide, by decide⟩

/-- C9: `save_to_csv` on the empty list still performs the parent-directory
creation and writes exactly the header line `price_raw` with no data rows. -/
theorem save_to_csv_empty_header_only :
    save_to_csv [] = { mkdirParents := true, content := "price_raw\n".toList } := by
  decide

/-- C10: for every page count `N ≤ 0` the loop over `1..N` is empty, so
`collect_prices` returns the empty list and the run performs no fetch,
extraction, or sleep. -/
theorem collect_prices_nonpositive_pages (fetcher : List Char → Option (List Char))
    (base_url : List Char) (pages : Int) (delay : ℚ) (h : pages ≤ 0) :
    collect_prices fetcher base_url pages delay = [] ∧
    (collectRun fetcher base_url pages delay).events = [] := by
  have hrange : pageRange pages = [] := by
    unfold pageRange
    rw [show pages.toNat = 0 from by omega]
    rfl
  constructor
  · rw [collect_prices_eq, hrange]
    rfl
  · rw [collectRun_eq, hrange]
    rfl

/-- C10 witness: page count 0 with an always-succeeding fetcher yields the
empty aggregate and an empty effect trace. -/
theorem collect_prices_nonpositive_pages_witness :
    collect_prices fetcherConstPage BASE_URL 0 1 = [] ∧
    (collectRun fetcherConstPage BASE_URL 0 1).events = [] :=
  collect_prices_nonpositive_pages fetcherConstPage BASE_URL 0 1 (by decide)
